import Mathlib

/-!
Verification of the bSFS core (blockwise site frequency spectrum).

The development embeds the functions of `src/lib.rs` as Lean definitions:

* `flatten_site`   — concatenation of per-individual ploidy vectors;
* `site_to_entry`  — per-population derived-allele counts of one flattened
  site (the Rust body unwraps every sample-map lookup, so an unmapped
  haplotype position makes the whole call fail; we model that failure as
  `Option.none`);
* `bsfs_indices`   — one entry per site of a block, in block order;
* `n_haps_per_pop` — haplotype count per population label.

A Rust `HashMap<usize, String>` is embedded as its list of key/value
entries in some iteration order (`SampleMap`); hash-map lookups become
association-list lookups, and well-formedness (`SampleMapWF`) records that
keys are unique.  `itertools`' `sorted` on the labels is embedded as
insertion sort by the lexicographic character order `PopLe`, which agrees
with the byte-lexicographic order Rust uses on UTF-8 strings; `Vec::dedup`
(removal of consecutive duplicates) is embedded as `dedupAdj`.

The function `bsfs_matrix` of the source is an unfinished fragment that
does not compile (a missing semicolon, an ill-formed `ndarray` type and no
returned value), so matrix mode is modelled from the specification text
instead; the definitions concerned say so in their doc comments.
-/

/-- A sample map: the entries of the Rust `HashMap<usize, String>` listed in
some iteration order. -/
abbrev SampleMap := List (Nat × String)

/-- Well-formedness of a hash-map dump: every key occurs at most once. -/
def SampleMapWF (sm : SampleMap) : Prop := (sm.map Prod.fst).Nodup

instance (sm : SampleMap) : Decidable (SampleMapWF sm) :=
  inferInstanceAs (Decidable ((sm.map Prod.fst).Nodup))

/-- Lexicographic comparison of character lists, characters compared by their
Unicode scalar value.  This is the order Rust `String`s sort by, since UTF-8
byte order coincides with scalar-value order. -/
def lexLeChars : List Char → List Char → Bool
  | [], _ => true
  | _ :: _, [] => false
  | a :: as, b :: bs => if a = b then lexLeChars as bs else decide (a < b)

/-- Boolean lexicographic order on population labels. -/
def popLe (a b : String) : Bool := lexLeChars a.data b.data

/-- Propositional form of `popLe`, used for sortedness statements. -/
def PopLe (a b : String) : Prop := popLe a b = true

instance : DecidableRel PopLe :=
  fun a b => inferInstanceAs (Decidable (popLe a b = true))

/-- Rust `Vec::dedup`: remove consecutive duplicate labels. -/
def dedupAdj : List String → List String
  | [] => []
  | [a] => [a]
  | a :: b :: rest => if a = b then dedupAdj (b :: rest) else a :: dedupAdj (b :: rest)

/-- Embeds lines 15–16 (and the identical lines 49–50) of the source: the
values of the sample map, sorted ascending and with consecutive duplicates
removed — the canonical population order. -/
def populationsOf (sm : SampleMap) : List String :=
  dedupAdj (List.insertionSort PopLe (sm.map Prod.snd))

/-- Embeds `flatten_site`: treat individuals as haploid by concatenating the
per-individual call vectors in order. -/
def flatten_site (site : List (List Nat)) : List Nat := site.flatten

/-- The `enumerate / filter / filter / count` chain of `site_to_entry`, for one
population: `idx` is the position of the head of the remaining call list.  The
Rust body unwraps `sample_map.get(idx)` for every position, so a missing
position makes the whole count fail (`none`). -/
def nton_go (sm : SampleMap) (population : String) : Nat → List Nat → Option Nat
  | _, [] => some 0
  | idx, v :: rest =>
    match sm.lookup idx with
    | none => none
    | some lab =>
      Option.map (fun n => if lab = population ∧ v ≠ 0 then n + 1 else n)
        (nton_go sm population (idx + 1) rest)

/-- Count of haplotype positions of `site` mapped to `population` that carry a
non-zero call (`none` when some lookup fails). -/
def nton (site : List Nat) (sm : SampleMap) (population : String) : Option Nat :=
  nton_go sm population 0 site

/-- The `for population in populations` loop of `site_to_entry`, pushing one
count per population. -/
def ntonsLoop (site : List Nat) (sm : SampleMap) : List String → Option (List Nat)
  | [] => some []
  | population :: rest =>
    match nton site sm population with
    | none => none
    | some n => Option.map (fun ns => n :: ns) (ntonsLoop site sm rest)

/-- Embeds `site_to_entry`: the SFS entry of a single flattened site, one
derived-allele count per population in canonical order.  A failing unwrap in
the Rust body (an unmapped haplotype position, reached whenever at least one
population exists) is modelled as `none`. -/
def site_to_entry (site : List Nat) (sm : SampleMap) : Option (List Nat) :=
  ntonsLoop site sm (populationsOf sm)

/-- The mapping loop of `bsfs_indices`: flatten then classify each site. -/
def bsfsLoop (sm : SampleMap) : List (List (List Nat)) → Option (List (List Nat))
  | [] => some []
  | site :: rest =>
    match site_to_entry (flatten_site site) sm with
    | none => none
    | some e => Option.map (fun es => e :: es) (bsfsLoop sm rest)

/-- Embeds `bsfs_indices`: the entries of every site of a block, in block
order. -/
def bsfs_indices (calls : List (List (List Nat))) (sm : SampleMap) :
    Option (List (List Nat)) :=
  bsfsLoop sm calls

/-- One step of the counting loop of `n_haps_per_pop`: bump the tally of
`pop` in the association list of counts (insert it at tally `1` when
absent), as `counts.entry(pop).or_default() += 1` does. -/
def incrCount (counts : List (String × Nat)) (pop : String) : List (String × Nat) :=
  match counts with
  | [] => [(pop, 1)]
  | (p, n) :: rest => if p = pop then (p, n + 1) :: rest else (p, n) :: incrCount rest pop

/-- Embeds `n_haps_per_pop`: for every individual of the sample map, bump the
count of its population.  (The Rust loop iterates over the map keys and looks
each one up again, which always succeeds, so it is one bump per map entry;
the sorted population list it also computes is dead code.)  The function is
total: no error value exists anywhere in the source. -/
def n_haps_per_pop (sm : SampleMap) : List (String × Nat) :=
  sm.foldl (fun counts e => incrCount counts e.2) []

/-- Reading a count off the result of `n_haps_per_pop` (`0` when the label is
absent, as a fresh default would be). -/
def countOf : List (String × Nat) → String → Nat
  | [], _ => 0
  | (p, n) :: rest, pop => if p = pop then n else countOf rest pop

/-- Auxiliary predicate for the partition argument: the position `p` is mapped
and its label belongs to `pops`. -/
def labelIn (sm : SampleMap) (pops : List String) (p : Nat) : Bool :=
  match sm.lookup p with
  | none => false
  | some lab => pops.contains lab

/-- Row-major flat position of multi-index `e` in a dense matrix of shape
`s`. -/
def ravel : List Nat → List Nat → Nat
  | _ :: ds, i :: is => i * ds.prod + ravel ds is
  | _, _ => 0

/-- Bump the cell at flat position `i` of the dense matrix `m`. -/
def bump (m : List Nat) (i : Nat) : List Nat := m.set i (m.getD i 0 + 1)

/-- Bounds check of a multi-index against a shape, axis by axis. -/
def validIndex : List Nat → List Nat → Bool
  | [], [] => true
  | d :: ds, i :: is => decide (i < d) && validIndex ds is
  | _, _ => false

/-- Modelled from the spec: the shape of the bSFS matrix — one axis per
population in canonical order, axis `k` of size `haplotypes_in_population k
+ 1`.  The Rust `bsfs_matrix` that should compute this shape is an
unfinished fragment that does not compile. -/
def matShape (sm : SampleMap) : List Nat :=
  (populationsOf sm).map (fun population => countOf (n_haps_per_pop sm) population + 1)

/-- Accumulation of a list of entries into a zero-initialised dense matrix of
shape `shape`, bumping the cell at each entry in turn — the construction the
spec prescribes for building the matrix out of indices-mode output. -/
def accumulate (shape : List Nat) (entries : List (List Nat)) : List Nat :=
  entries.foldl (fun m e => bump m (ravel shape e)) (List.replicate shape.prod 0)

/-- Modelled from the spec: the site loop of matrix mode — classify each site
of the block (flatten, then `site_to_entry`) and bump the cell at its entry.
The Rust `bsfs_matrix` body is an unfinished fragment that does not
compile. -/
def bsfsMatrixLoop (sm : SampleMap) (shape : List Nat) :
    List (List (List Nat)) → List Nat → Option (List Nat)
  | [], m => some m
  | site :: rest, m =>
    match site_to_entry (flatten_site site) sm with
    | none => none
    | some e => bsfsMatrixLoop sm shape rest (bump m (ravel shape e))

/-- Modelled from the spec: `bsfs_matrix` — a dense, zero-initialised matrix
of shape `matShape`, whose cell at multi-index `e` counts the sites of the
block classified to entry `e`.  The Rust body at lines 68–73 is an unfinished
fragment that does not compile, so the definition follows §4.4 of the spec. -/
def bsfs_matrix (calls : List (List (List Nat))) (sm : SampleMap) : Option (List Nat) :=
  bsfsMatrixLoop sm (matShape sm) calls (List.replicate (matShape sm).prod 0)

/-- The sample map of the test fixtures: individuals 0–3 in `popA`, 4–7 in
`popB`. -/
def exMap : SampleMap :=
  [(0, "popA"), (1, "popA"), (2, "popA"), (3, "popA"),
   (4, "popB"), (5, "popB"), (6, "popB"), (7, "popB")]

/-- The three-site block of the test fixtures. -/
def exBlock : List (List (List Nat)) :=
  [[[0, 1], [1, 0], [0, 0], [1, 1]],
   [[1, 1], [1, 1], [1, 1], [1, 1]],
   [[0, 0], [0, 1], [0, 0], [0, 0]]]

/-! Sanity checks of the embedding against the test fixtures of the
repository (`test_flatten_site`, `test_site_to_entry`, `test_bsfs_indices`,
`test_n_haps_per_pop`). -/

theorem fixture_flatten_site :
    flatten_site [[0, 0], [0, 1], [0, 0], [0, 1]] = [0, 0, 0, 1, 0, 0, 0, 1] := by decide

theorem fixture_populations : populationsOf exMap = ["popA", "popB"] := by decide

theorem fixture_site_to_entry :
    site_to_entry [0, 0, 0, 1, 0, 0, 0, 1] exMap = some [1, 1] := by decide

theorem fixture_bsfs_indices :
    bsfs_indices exBlock exMap = some [[2, 2], [4, 4], [1, 0]] := by decide

theorem fixture_n_haps :
    countOf (n_haps_per_pop exMap) "popA" = 4 ∧ countOf (n_haps_per_pop exMap) "popB" = 4 := by
  decide

theorem fixture_matShape : matShape exMap = [5, 5] := by decide

/-! Order properties of the label comparison. -/

theorem lexLeChars_total : ∀ a b : List Char, lexLeChars a b = true ∨ lexLeChars b a = true
  | [], _ => Or.inl rfl
  | _ :: _, [] => Or.inr rfl
  | a :: as, b :: bs => by
    by_cases hab : a = b
    · subst hab
      rcases lexLeChars_total as bs with h | h
      · exact Or.inl (by simp [lexLeChars, h])
      · exact Or.inr (by simp [lexLeChars, h])
    · rcases lt_or_gt_of_ne hab with h | h
      · exact Or.inl (by simp [lexLeChars, hab, h])
      · exact Or.inr (by simp [lexLeChars, Ne.symm hab, h])

theorem lexLeChars_trans : ∀ a b c : List Char,
    lexLeChars a b = true → lexLeChars b c = true → lexLeChars a c = true
  | [], _, _, _, _ => rfl
  | _ :: _, [], _, h, _ => by simp [lexLeChars] at h
  | _ :: _, _ :: _, [], _, h => by simp [lexLeChars] at h
  | a :: as, b :: bs, c :: cs, h₁, h₂ => by
    simp only [lexLeChars] at h₁ h₂ ⊢
    by_cases hab : a = b
    · subst hab
      by_cases hac : a = c
      · subst hac
        simp only [if_pos rfl] at h₁ h₂ ⊢
        exact lexLeChars_trans as bs cs h₁ h₂
      · simp only [if_pos rfl] at h₁
        simp only [if_neg hac] at h₂ ⊢
        exact h₂
    · by_cases hbc : b = c
      · subst hbc
        simp only [if_neg hab] at h₁ ⊢
        exact h₁
      · simp only [if_neg hab] at h₁
        simp only [if_neg hbc] at h₂
        have hac : a < c := lt_trans (of_decide_eq_true h₁) (of_decide_eq_true h₂)
        simp [ne_of_lt hac, hac]

theorem lexLeChars_antisymm : ∀ a b : List Char,
    lexLeChars a b = true → lexLeChars b a = true → a = b
  | [], [], _, _ => rfl
  | [], _ :: _, _, h => by simp [lexLeChars] at h
  | _ :: _, [], h, _ => by simp [lexLeChars] at h
  | a :: as, b :: bs, h₁, h₂ => by
    by_cases hab : a = b
    · subst hab
      simp only [lexLeChars, if_pos rfl] at h₁ h₂
      rw [lexLeChars_antisymm as bs h₁ h₂]
    · exfalso
      simp only [lexLeChars, if_neg hab, if_neg (Ne.symm hab)] at h₁ h₂
      exact absurd (lt_trans (of_decide_eq_true h₁) (of_decide_eq_true h₂)) (lt_irrefl a)

theorem popLe_isTotal : IsTotal String PopLe :=
  ⟨fun a b => lexLeChars_total a.data b.data⟩

theorem popLe_isTrans : IsTrans String PopLe :=
  ⟨fun a b c => lexLeChars_trans a.data b.data c.data⟩

theorem popLe_isAntisymm : IsAntisymm String PopLe :=
  ⟨fun a b h₁ h₂ => String.toList_inj.mp (lexLeChars_antisymm a.data b.data h₁ h₂)⟩

/-! Properties of adjacent deduplication and of the canonical population
order. -/

theorem mem_dedupAdj : ∀ (l : List String) (a : String), a ∈ dedupAdj l ↔ a ∈ l
  | [], a => Iff.rfl
  | [b], a => Iff.rfl
  | b :: c :: rest, a => by
    by_cases h : b = c
    · subst h
      rw [dedupAdj, if_pos rfl, mem_dedupAdj (b :: rest) a]
      simp
    · rw [dedupAdj, if_neg h]
      simp [mem_dedupAdj (c :: rest) a]

theorem sorted_dedupAdj : ∀ l : List String, l.Sorted PopLe → (dedupAdj l).Sorted PopLe
  | [], _ => List.sorted_nil
  | [a], _ => List.sorted_singleton a
  | a :: b :: rest, h => by
    rw [List.sorted_cons] at h
    obtain ⟨ha, h2⟩ := h
    by_cases hab : a = b
    · rw [dedupAdj, if_pos hab]
      exact sorted_dedupAdj (b :: rest) h2
    · rw [dedupAdj, if_neg hab, List.sorted_cons]
      exact ⟨fun x hx => ha x ((mem_dedupAdj _ x).mp hx), sorted_dedupAdj (b :: rest) h2⟩

theorem nodup_dedupAdj : ∀ l : List String, l.Sorted PopLe → (dedupAdj l).Nodup
  | [], _ => List.nodup_nil
  | [a], _ => List.nodup_singleton a
  | a :: b :: rest, h => by
    rw [List.sorted_cons] at h
    obtain ⟨ha, h2⟩ := h
    by_cases hab : a = b
    · rw [dedupAdj, if_pos hab]
      exact nodup_dedupAdj (b :: rest) h2
    · rw [dedupAdj, if_neg hab]
      refine List.nodup_cons.mpr ⟨fun hmem => ?_, nodup_dedupAdj (b :: rest) h2⟩
      rcases List.mem_cons.mp ((mem_dedupAdj _ a).mp hmem) with h1 | h1
      · exact hab h1
      · have hba : PopLe b a := (List.sorted_cons.mp h2).1 a h1
        have hab2 : PopLe a b := ha b (List.mem_cons_self b rest)
        haveI := popLe_isAntisymm
        exact hab (antisymm hab2 hba)

theorem populationsOf_sorted (sm : SampleMap) : (populationsOf sm).Sorted PopLe := by
  haveI := popLe_isTotal
  haveI := popLe_isTrans
  exact sorted_dedupAdj _ (List.sorted_insertionSort PopLe _)

theorem populationsOf_nodup (sm : SampleMap) : (populationsOf sm).Nodup := by
  haveI := popLe_isTotal
  haveI := popLe_isTrans
  exact nodup_dedupAdj _ (List.sorted_insertionSort PopLe _)

theorem mem_populationsOf (sm : SampleMap) (a : String) :
    a ∈ populationsOf sm ↔ a ∈ sm.map Prod.snd := by
  rw [populationsOf, mem_dedupAdj, List.mem_insertionSort]

theorem populationsOf_canonical (sm : SampleMap) (l : List String)
    (hs : l.Sorted PopLe) (hn : l.Nodup)
    (hm : ∀ a, a ∈ l ↔ a ∈ sm.map Prod.snd) : l = populationsOf sm := by
  have hperm : l.Perm (populationsOf sm) :=
    (List.perm_ext_iff_of_nodup hn (populationsOf_nodup sm)).mpr
      (fun a => (hm a).trans (mem_populationsOf sm a).symm)
  haveI := popLe_isAntisymm
  exact List.eq_of_perm_of_sorted hperm hs (populationsOf_sorted sm)

theorem length_populationsOf (sm : SampleMap) :
    (populationsOf sm).length = (sm.map Prod.snd).dedup.length := by
  have hperm : (populationsOf sm).Perm (sm.map Prod.snd).dedup :=
    (List.perm_ext_iff_of_nodup (populationsOf_nodup sm) (List.nodup_dedup _)).mpr
      (fun a => (mem_populationsOf sm a).trans (List.mem_dedup).symm)
  exact hperm.length_eq

/-! Association-list lookup lemmas for the embedded hash map. -/

theorem lookup_mem : ∀ (sm : SampleMap) (k : Nat) (v : String),
    sm.lookup k = some v → (k, v) ∈ sm
  | [], _, _, h => by simp [List.lookup] at h
  | (a, b) :: rest, k, v, h => by
    rw [List.lookup] at h
    split at h
    · rename_i heq
      cases h
      have hk : k = a := eq_of_beq heq
      subst hk
      exact List.mem_cons_self _ _
    · exact List.mem_cons_of_mem _ (lookup_mem rest k v h)

theorem lookup_isSome_iff : ∀ (sm : SampleMap) (k : Nat),
    (sm.lookup k).isSome = true ↔ k ∈ sm.map Prod.fst
  | [], k => by simp [List.lookup]
  | (a, b) :: rest, k => by
    rw [List.lookup]
    by_cases hk : k = a
    · subst hk
      simp
    · have hbeq : (k == a) = false := beq_false_of_ne hk
      rw [hbeq]
      simp [hk, lookup_isSome_iff rest k]

theorem lookup_of_mem_of_nodup : ∀ (sm : SampleMap), SampleMapWF sm →
    ∀ k v, (k, v) ∈ sm → sm.lookup k = some v
  | [], _, _, _, h => absurd h (List.not_mem_nil _)
  | (a, b) :: rest, hwf, k, v, h => by
    rcases List.mem_cons.mp h with h1 | h1
    · cases h1
      rw [List.lookup]
      simp
    · have hwf2 : SampleMapWF ((a, b) :: rest) := hwf
      rw [SampleMapWF, List.map_cons, List.nodup_cons] at hwf2
      have hk : k ≠ a := by
        intro hk
        apply hwf2.1
        have hmem : k ∈ rest.map Prod.fst := List.mem_map_of_mem Prod.fst h1
        rwa [hk] at hmem
      rw [List.lookup]
      have hbeq : (k == a) = false := beq_false_of_ne hk
      rw [hbeq]
      exact lookup_of_mem_of_nodup rest hwf2.2 k v h1

theorem lookup_perm_eq (sm₁ sm₂ : SampleMap) (hwf : SampleMapWF sm₁)
    (hperm : sm₁.Perm sm₂) (k : Nat) : sm₁.lookup k = sm₂.lookup k := by
  have hwf₂ : SampleMapWF sm₂ := (hperm.map Prod.fst).nodup_iff.mp hwf
  cases h : sm₁.lookup k with
  | some v =>
    exact (lookup_of_mem_of_nodup sm₂ hwf₂ k v (hperm.mem_iff.mp (lookup_mem sm₁ k v h))).symm
  | none =>
    cases h₂ : sm₂.lookup k with
    | none => rfl
    | some v =>
      have hmem : (k, v) ∈ sm₁ := hperm.mem_iff.mpr (lookup_mem sm₂ k v h₂)
      have hcontra := lookup_of_mem_of_nodup sm₁ hwf k v hmem
      rw [h] at hcontra
      exact absurd hcontra (by simp)

/-! Characterisation of `site_to_entry` on fully mapped sites. -/

theorem fst_lt_of_mem_enumFrom : ∀ (l : List Nat) (i : Nat) (q : Nat × Nat),
    q ∈ l.enumFrom i → q.1 < i + l.length
  | [], _, _, h => absurd h (List.not_mem_nil _)
  | v :: rest, i, q, h => by
    rw [List.enumFrom_cons] at h
    rcases List.mem_cons.mp h with h1 | h1
    · subst h1
      simp
    · have := fst_lt_of_mem_enumFrom rest (i + 1) q h1
      simp only [List.length_cons]
      omega

theorem nton_go_eq (sm : SampleMap) (pop : String) : ∀ (site : List Nat) (i : Nat),
    (∀ q ∈ site.enumFrom i, (sm.lookup q.1).isSome = true) →
    nton_go sm pop i site = some ((site.enumFrom i).countP
      (fun q => decide (sm.lookup q.1 = some pop) && decide (q.2 ≠ 0)))
  | [], i, _ => by simp [nton_go, List.enumFrom]
  | v :: rest, i, h => by
    have hhead : (sm.lookup i).isSome = true := by
      apply h (i, v)
      rw [List.enumFrom_cons]
      exact List.mem_cons_self _ _
    obtain ⟨lab, hlab⟩ := Option.isSome_iff_exists.mp hhead
    have htail := nton_go_eq sm pop rest (i + 1) (fun q hq => h q (by
      rw [List.enumFrom_cons]
      exact List.mem_cons_of_mem _ hq))
    rw [nton_go, hlab, htail, List.enumFrom_cons, List.countP_cons]
    by_cases hp : lab = pop
    · by_cases hv : v = 0
      · simp [hlab, hp, hv]
      · simp [hlab, hp, hv]
    · have hne : ¬ (sm.lookup i = some pop) := by
        rw [hlab]
        simp [hp]
      simp [hlab, hp, hne]

theorem nton_eq (sm : SampleMap) (pop : String) (site : List Nat)
    (h : ∀ p, p < site.length → (sm.lookup p).isSome = true) :
    nton site sm pop = some (site.enum.countP
      (fun q => decide (sm.lookup q.1 = some pop) && decide (q.2 ≠ 0))) :=
  nton_go_eq sm pop site 0 (fun q hq => h q.1 (by
    have := fst_lt_of_mem_enumFrom site 0 q hq
    omega))

theorem ntonsLoop_eq (site : List Nat) (sm : SampleMap) :
    ∀ (pops : List String) (f : String → Nat),
    (∀ pop ∈ pops, nton site sm pop = some (f pop)) →
    ntonsLoop site sm pops = some (pops.map f)
  | [], _, _ => by simp [ntonsLoop]
  | pop :: rest, f, h => by
    rw [ntonsLoop, h pop (List.mem_cons_self _ _), ntonsLoop_eq site sm rest f
      (fun p hp => h p (List.mem_cons_of_mem _ hp))]
    rfl

theorem site_to_entry_eq (site : List Nat) (sm : SampleMap)
    (h : ∀ p, p < site.length → (sm.lookup p).isSome = true) :
    site_to_entry site sm = some ((populationsOf sm).map (fun pop =>
      site.enum.countP (fun q => decide (sm.lookup q.1 = some pop) && decide (q.2 ≠ 0)))) :=
  ntonsLoop_eq site sm (populationsOf sm) _ (fun pop _ => nton_eq sm pop site h)

/-! Counting lemmas for `n_haps_per_pop`. -/

theorem countOf_incrCount : ∀ (counts : List (String × Nat)) (q pop : String),
    countOf (incrCount counts q) pop = countOf counts pop + if q = pop then 1 else 0
  | [], q, pop => by
    by_cases h : q = pop
    · simp [incrCount, countOf, h]
    · simp [incrCount, countOf, h]
  | (p, n) :: rest, q, pop => by
    by_cases hpq : p = q
    · subst hpq
      rw [incrCount, if_pos rfl]
      by_cases hp : p = pop
      · simp [countOf, hp]
      · simp [countOf, hp]
    · rw [incrCount, if_neg hpq]
      by_cases hp : p = pop
      · have hq : ¬ q = pop := fun h => hpq (hp.trans h.symm)
        simp [countOf, hp, hq]
      · simp [countOf, hp, countOf_incrCount rest q pop]

theorem countOf_foldl : ∀ (l : SampleMap) (acc : List (String × Nat)) (pop : String),
    countOf (l.foldl (fun counts e => incrCount counts e.2) acc) pop =
      countOf acc pop + l.countP (fun e => decide (e.2 = pop))
  | [], acc, pop => by simp
  | e :: rest, acc, pop => by
    rw [List.foldl_cons, countOf_foldl rest _ pop, countOf_incrCount, List.countP_cons]
    by_cases h : e.2 = pop
    · simp [h]
      omega
    · simp [h]

theorem countOf_n_haps (sm : SampleMap) (pop : String) :
    countOf (n_haps_per_pop sm) pop = sm.countP (fun e => decide (e.2 = pop)) := by
  rw [n_haps_per_pop, countOf_foldl]
  simp [countOf]

theorem incrCount_ne_nil (counts : List (String × Nat)) (pop : String) :
    incrCount counts pop ≠ [] := by
  match counts with
  | [] => simp [incrCount]
  | (p, n) :: rest =>
    rw [incrCount]
    by_cases h : p = pop
    · simp [h]
    · simp [h]

theorem foldl_incr_ne_nil : ∀ (l : SampleMap) (acc : List (String × Nat)),
    acc ≠ [] → l.foldl (fun counts e => incrCount counts e.2) acc ≠ []
  | [], _, h => h
  | e :: rest, acc, _ => by
    rw [List.foldl_cons]
    exact foldl_incr_ne_nil rest _ (incrCount_ne_nil acc e.2)

theorem n_haps_per_pop_eq_nil_iff (sm : SampleMap) : n_haps_per_pop sm = [] ↔ sm = [] := by
  constructor
  · intro h
    cases sm with
    | nil => rfl
    | cons e rest =>
      refine absurd h ?_
      rw [n_haps_per_pop, List.foldl_cons]
      exact foldl_incr_ne_nil rest _ (incrCount_ne_nil [] e.2)
  · intro h
    subst h
    rfl

/-! Per-population bound: a population never counts more haplotypes than the
sample map assigns to it. -/

theorem countP_entry_le (sm : SampleMap) (site : List Nat) (pop : String) :
    site.enum.countP (fun q => decide (sm.lookup q.1 = some pop) && decide (q.2 ≠ 0)) ≤
      countOf (n_haps_per_pop sm) pop := by
  rw [countOf_n_haps, List.countP_eq_length_filter, List.countP_eq_length_filter]
  have hfst : ((site.enum.filter
      (fun q => decide (sm.lookup q.1 = some pop) && decide (q.2 ≠ 0))).map Prod.fst).Nodup := by
    have hsl : List.Sublist ((site.enum.filter
        (fun q => decide (sm.lookup q.1 = some pop) && decide (q.2 ≠ 0))).map Prod.fst)
        (site.enum.map Prod.fst) := (List.filter_sublist _).map Prod.fst
    have hrange : site.enum.map Prod.fst = List.range' 0 site.length :=
      List.enumFrom_map_fst 0 site
    rw [hrange] at hsl
    exact hsl.nodup (List.nodup_range' 0 site.length)
  have hnodup : ((site.enum.filter
      (fun q => decide (sm.lookup q.1 = some pop) && decide (q.2 ≠ 0))).map
      (fun q => (q.1, pop))).Nodup := by
    apply List.Nodup.of_map Prod.fst
    rw [List.map_map]
    exact hfst
  have hsub : ((site.enum.filter
      (fun q => decide (sm.lookup q.1 = some pop) && decide (q.2 ≠ 0))).map
      (fun q => (q.1, pop))) ⊆ sm.filter (fun e => decide (e.2 = pop)) := by
    intro x hx
    obtain ⟨q, hq, hxq⟩ := List.mem_map.mp hx
    have hq2 := List.of_mem_filter hq
    rw [Bool.and_eq_true, decide_eq_true_eq] at hq2
    rw [List.mem_filter]
    subst hxq
    exact ⟨lookup_mem sm q.1 pop hq2.1, by simp⟩
  have hle := (List.subperm_of_subset hnodup hsub).length_le
  rw [List.length_map] at hle
  exact hle

/-! Partition argument: the population counts of one site sum to the number of
derived calls at mapped positions. -/

theorem countP_or_disjoint {α : Type} : ∀ (l : List α) (p q : α → Bool),
    (∀ a ∈ l, ¬(p a = true ∧ q a = true)) →
    l.countP (fun a => p a || q a) = l.countP p + l.countP q
  | [], _, _, _ => rfl
  | a :: rest, p, q, h => by
    rw [List.countP_cons, List.countP_cons, List.countP_cons,
      countP_or_disjoint rest p q (fun x hx => h x (List.mem_cons_of_mem _ hx))]
    by_cases hp : p a = true
    · have hq : ¬ q a = true := fun hq => h a (List.mem_cons_self _ _) ⟨hp, hq⟩
      simp [hp, hq]
      omega
    · by_cases hq : q a = true
      · simp [hp, hq]
        omega
      · simp [hp, hq]

theorem sum_counts (sm : SampleMap) (l : List (Nat × Nat)) :
    ∀ (pops : List String), pops.Nodup →
    (pops.map (fun pop => l.countP
      (fun q => decide (sm.lookup q.1 = some pop) && decide (q.2 ≠ 0)))).sum
      = l.countP (fun q => labelIn sm pops q.1 && decide (q.2 ≠ 0))
  | [], _ => by
    rw [List.map_nil, List.sum_nil]
    symm
    rw [List.countP_eq_zero]
    intro q _
    cases hx : sm.lookup q.1 <;> simp [labelIn, hx]
  | pop :: rest, hnd => by
    rw [List.map_cons, List.sum_cons, sum_counts sm l rest (List.nodup_cons.mp hnd).2]
    rw [← countP_or_disjoint l _ _ ?_]
    · apply List.countP_congr
      intro x _
      cases hx : sm.lookup x.1 with
      | none => simp [labelIn, hx]
      | some lab =>
        by_cases hl : lab = pop
        · simp [labelIn, hx, hl]
        · simp [labelIn, hx, hl]
    · intro x _ hcontra
      obtain ⟨h1, h2⟩ := hcontra
      rw [Bool.and_eq_true, decide_eq_true_eq] at h1
      rw [Bool.and_eq_true] at h2
      have hlab : labelIn sm rest x.1 = true := h2.1
      simp only [labelIn, h1.1] at hlab
      have hpop : pop ∈ rest := by simpa using hlab
      exact (List.nodup_cons.mp hnd).1 hpop

/-! Dense-matrix bookkeeping: bumping one cell of the flat representation. -/

theorem bump_cons_zero (v : Nat) (m : List Nat) : bump (v :: m) 0 = (v + 1) :: m := by
  simp [bump]

theorem bump_cons_succ (v : Nat) (m : List Nat) (i : Nat) :
    bump (v :: m) (i + 1) = v :: bump m i := by
  simp [bump]

theorem length_bump (m : List Nat) (i : Nat) : (bump m i).length = m.length := by
  simp [bump]

theorem sum_bump : ∀ (m : List Nat) (i : Nat), i < m.length → (bump m i).sum = m.sum + 1
  | [], i, h => absurd h (by simp)
  | v :: rest, 0, _ => by
    rw [bump_cons_zero, List.sum_cons, List.sum_cons]
    omega
  | v :: rest, i + 1, h => by
    rw [bump_cons_succ, List.sum_cons, List.sum_cons, sum_bump rest i (by simpa using h)]
    omega

theorem getD_bump : ∀ (m : List Nat) (i j : Nat),
    (bump m i).getD j 0 = m.getD j 0 + if i = j ∧ j < m.length then 1 else 0
  | [], i, j => by simp [bump]
  | v :: rest, 0, 0 => by simp [bump_cons_zero]
  | v :: rest, 0, j + 1 => by simp [bump_cons_zero]
  | v :: rest, i + 1, 0 => by simp [bump_cons_succ]
  | v :: rest, i + 1, j + 1 => by
    rw [bump_cons_succ, List.getD_cons_succ, List.getD_cons_succ, getD_bump rest i j]
    have hiff : (i + 1 = j + 1 ∧ j + 1 < (v :: rest).length) ↔ (i = j ∧ j < rest.length) := by
      simp only [List.length_cons]
      omega
    rw [if_congr hiff rfl rfl]

theorem length_foldl_bump (shape : List Nat) : ∀ (es : List (List Nat)) (m : List Nat),
    (es.foldl (fun acc e => bump acc (ravel shape e)) m).length = m.length
  | [], _ => rfl
  | e :: rest, m => by
    rw [List.foldl_cons, length_foldl_bump shape rest _, length_bump]

theorem sum_foldl_bump (shape : List Nat) : ∀ (es : List (List Nat)) (m : List Nat),
    (∀ e ∈ es, ravel shape e < m.length) →
    (es.foldl (fun acc e => bump acc (ravel shape e)) m).sum = m.sum + es.length
  | [], m, _ => by simp
  | e :: rest, m, h => by
    have hrest : ∀ x ∈ rest, ravel shape x < (bump m (ravel shape e)).length := by
      intro x hx
      rw [length_bump]
      exact h x (List.mem_cons_of_mem _ hx)
    rw [List.foldl_cons, sum_foldl_bump shape rest _ hrest,
      sum_bump m _ (h e (List.mem_cons_self _ _)), List.length_cons]
    omega

theorem getD_foldl_bump (shape : List Nat) : ∀ (es : List (List Nat)) (m : List Nat) (j : Nat),
    (∀ e ∈ es, ravel shape e < m.length) →
    (es.foldl (fun acc e => bump acc (ravel shape e)) m).getD j 0
      = m.getD j 0 + es.countP (fun e => decide (ravel shape e = j))
  | [], m, j, _ => by simp
  | e :: rest, m, j, h => by
    have hrest : ∀ x ∈ rest, ravel shape x < (bump m (ravel shape e)).length := by
      intro x hx
      rw [length_bump]
      exact h x (List.mem_cons_of_mem _ hx)
    rw [List.foldl_cons, getD_foldl_bump shape rest _ j hrest, getD_bump, List.countP_cons]
    by_cases hej : ravel shape e = j
    · have hj : j < m.length := hej ▸ h e (List.mem_cons_self _ _)
      simp [hej, hj]
      omega
    · simp [hej]

/-! Bounds and injectivity of the row-major index. -/

theorem ravel_lt : ∀ (s e : List Nat), validIndex s e = true → ravel s e < s.prod
  | [], [], _ => by decide
  | [], _ :: _, h => Bool.noConfusion h
  | _ :: _, [], h => Bool.noConfusion h
  | d :: ds, i :: is, h => by
    rw [validIndex, Bool.and_eq_true, decide_eq_true_eq] at h
    rw [ravel, List.prod_cons]
    have hr := ravel_lt ds is h.2
    calc i * ds.prod + ravel ds is < i * ds.prod + ds.prod := by omega
      _ = (i + 1) * ds.prod := by ring
      _ ≤ d * ds.prod := Nat.mul_le_mul_right _ h.1

theorem ravel_head_eq {P a b r₁ r₂ : Nat} (h₁ : r₁ < P) (h₂ : r₂ < P)
    (heq : a * P + r₁ = b * P + r₂) : a = b ∧ r₁ = r₂ := by
  rcases Nat.lt_trichotomy a b with h | h | h
  · exfalso
    have hlt : a * P + r₁ < b * P + r₂ := by
      have hstep : a * P + P ≤ b * P := by
        calc a * P + P = (a + 1) * P := by ring
          _ ≤ b * P := Nat.mul_le_mul_right _ h
      have h1 : a * P + r₁ < a * P + P := Nat.add_lt_add_left h₁ _
      exact lt_of_lt_of_le h1 (le_trans hstep (Nat.le_add_right _ _))
    exact absurd heq (Nat.ne_of_lt hlt)
  · subst h
    exact ⟨rfl, Nat.add_left_cancel heq⟩
  · exfalso
    have hlt : b * P + r₂ < a * P + r₁ := by
      have hstep : b * P + P ≤ a * P := by
        calc b * P + P = (b + 1) * P := by ring
          _ ≤ a * P := Nat.mul_le_mul_right _ h
      have h1 : b * P + r₂ < b * P + P := Nat.add_lt_add_left h₂ _
      exact lt_of_lt_of_le h1 (le_trans hstep (Nat.le_add_right _ _))
    exact absurd heq.symm (Nat.ne_of_lt hlt)

theorem ravel_inj : ∀ (s e₁ e₂ : List Nat), validIndex s e₁ = true → validIndex s e₂ = true →
    ravel s e₁ = ravel s e₂ → e₁ = e₂
  | [], [], [], _, _, _ => rfl
  | [], _ :: _, _, h, _, _ => Bool.noConfusion h
  | [], [], _ :: _, _, h, _ => Bool.noConfusion h
  | _ :: _, [], _, h, _, _ => Bool.noConfusion h
  | _ :: _, _ :: _, [], _, h, _ => Bool.noConfusion h
  | d :: ds, i :: is, j :: js, h₁, h₂, heq => by
    rw [validIndex, Bool.and_eq_true, decide_eq_true_eq] at h₁ h₂
    rw [ravel, ravel] at heq
    obtain ⟨hij, hrest⟩ :=
      ravel_head_eq (ravel_lt ds is h₁.2) (ravel_lt ds js h₂.2) heq
    rw [hij, ravel_inj ds is js h₁.2 h₂.2 hrest]

theorem validIndex_map {α : Type} (f g : α → Nat) : ∀ (l : List α),
    (∀ x ∈ l, f x < g x) → validIndex (l.map g) (l.map f) = true
  | [], _ => rfl
  | x :: rest, h => by
    rw [List.map_cons, List.map_cons, validIndex, Bool.and_eq_true, decide_eq_true_eq]
    exact ⟨h x (List.mem_cons_self _ _),
      validIndex_map f g rest (fun y hy => h y (List.mem_cons_of_mem _ hy))⟩

/-! Relating the matrix-mode site loop to accumulation of indices-mode
output. -/

theorem bsfsMatrixLoop_eq (sm : SampleMap) (shape : List Nat) :
    ∀ (calls : List (List (List Nat))) (m : List Nat),
    bsfsMatrixLoop sm shape calls m =
      Option.map (fun es => es.foldl (fun acc e => bump acc (ravel shape e)) m)
        (bsfsLoop sm calls)
  | [], _ => rfl
  | site :: rest, m => by
    rw [bsfsMatrixLoop, bsfsLoop]
    cases h : site_to_entry (flatten_site site) sm with
    | none => rfl
    | some e =>
      show bsfsMatrixLoop sm shape rest (bump m (ravel shape e)) =
        Option.map (fun es => List.foldl (fun acc x => bump acc (ravel shape x)) m es)
          (Option.map (fun es => e :: es) (bsfsLoop sm rest))
      rw [bsfsMatrixLoop_eq sm shape rest (bump m (ravel shape e))]
      cases bsfsLoop sm rest <;> rfl

/-! Further bridges: enumeration counts, failure propagation, and invariance
of the pipeline under reordering of the sample map. -/

theorem countP_enumFrom_nz : ∀ (l : List Nat) (i : Nat),
    (l.enumFrom i).countP (fun q => decide (q.2 ≠ 0)) = l.countP (fun v => decide (v ≠ 0))
  | [], _ => rfl
  | v :: rest, i => by
    rw [List.enumFrom_cons, List.countP_cons, List.countP_cons,
      countP_enumFrom_nz rest (i + 1)]

theorem entry_sum_eq (site : List Nat) (sm : SampleMap)
    (h : ∀ p, p < site.length → (sm.lookup p).isSome = true) :
    ((populationsOf sm).map (fun pop => site.enum.countP
      (fun q => decide (sm.lookup q.1 = some pop) && decide (q.2 ≠ 0)))).sum
      = site.countP (fun v => decide (v ≠ 0)) := by
  rw [sum_counts sm site.enum (populationsOf sm) (populationsOf_nodup sm)]
  have hcong : site.enum.countP (fun q => labelIn sm (populationsOf sm) q.1 && decide (q.2 ≠ 0))
      = site.enum.countP (fun q => decide (q.2 ≠ 0)) := by
    apply List.countP_congr
    intro q hq
    have hlt : q.1 < site.length := by
      have := fst_lt_of_mem_enumFrom site 0 q hq
      omega
    obtain ⟨lab, hlab⟩ := Option.isSome_iff_exists.mp (h q.1 hlt)
    have hmem : lab ∈ sm.map Prod.snd :=
      List.mem_map_of_mem Prod.snd (lookup_mem sm q.1 lab hlab)
    have hin : labelIn sm (populationsOf sm) q.1 = true := by
      simp only [labelIn, hlab]
      have hlabmem : lab ∈ populationsOf sm := (mem_populationsOf sm lab).mpr hmem
      simpa using hlabmem
    simp [hin]
  rw [hcong]
  exact countP_enumFrom_nz site 0

theorem getD_map {α β : Type} (dflt : β) (f : α → β) : ∀ (l : List α) (k : Nat) (d : α),
    k < l.length → (l.map f).getD k dflt = f (l.getD k d)
  | [], k, d, h => absurd h (by simp)
  | _ :: _, 0, _, _ => rfl
  | _ :: rest, k + 1, d, h => by
    rw [List.map_cons, List.getD_cons_succ, List.getD_cons_succ]
    exact getD_map dflt f rest k d (by simpa using h)

theorem bsfsLoop_eq_map (sm : SampleMap) : ∀ (calls : List (List (List Nat))),
    (∀ site ∈ calls, ∀ p, p < (flatten_site site).length → (sm.lookup p).isSome = true) →
    bsfsLoop sm calls = some (calls.map (fun site => (populationsOf sm).map (fun pop =>
      (flatten_site site).enum.countP
        (fun q => decide (sm.lookup q.1 = some pop) && decide (q.2 ≠ 0)))))
  | [], _ => rfl
  | site :: rest, h => by
    rw [bsfsLoop, site_to_entry_eq (flatten_site site) sm (h site (List.mem_cons_self _ _)),
      bsfsLoop_eq_map sm rest (fun s hs => h s (List.mem_cons_of_mem _ hs))]
    rfl

theorem nton_go_none (sm : SampleMap) (pop : String) : ∀ (site : List Nat) (i p : Nat),
    i ≤ p → p < i + site.length → sm.lookup p = none → nton_go sm pop i site = none
  | [], _, _, h₁, h₂, _ => absurd h₂ (by simp; omega)
  | v :: rest, i, p, h₁, h₂, hnone => by
    by_cases hip : p = i
    · subst hip
      rw [nton_go, hnone]
    · rw [nton_go]
      cases hl : sm.lookup i with
      | none => rfl
      | some lab =>
        rw [nton_go_none sm pop rest (i + 1) p (by omega) (by
          simp only [List.length_cons] at h₂
          omega) hnone]
        rfl

theorem site_to_entry_none (site : List Nat) (sm : SampleMap) (p : Nat)
    (hp : p < site.length) (hnone : sm.lookup p = none)
    (hpops : populationsOf sm ≠ []) : site_to_entry site sm = none := by
  obtain ⟨pop, rest, hcons⟩ : ∃ pop rest, populationsOf sm = pop :: rest := by
    cases hpops2 : populationsOf sm with
    | nil => exact absurd hpops2 hpops
    | cons a b => exact ⟨a, b, rfl⟩
  rw [site_to_entry, hcons, ntonsLoop]
  have hn : nton site sm pop = none :=
    nton_go_none sm pop site 0 p (Nat.zero_le p) (by omega) hnone
  rw [hn]

theorem populationsOf_perm (sm₁ sm₂ : SampleMap) (hperm : sm₁.Perm sm₂) :
    populationsOf sm₁ = populationsOf sm₂ :=
  populationsOf_canonical sm₂ (populationsOf sm₁) (populationsOf_sorted sm₁)
    (populationsOf_nodup sm₁)
    (fun a => (mem_populationsOf sm₁ a).trans (hperm.map Prod.snd).mem_iff)

theorem nton_go_congr (sm₁ sm₂ : SampleMap) (pop : String)
    (hl : ∀ k, sm₁.lookup k = sm₂.lookup k) : ∀ (site : List Nat) (i : Nat),
    nton_go sm₁ pop i site = nton_go sm₂ pop i site
  | [], _ => rfl
  | v :: rest, i => by
    rw [nton_go, nton_go, hl i, nton_go_congr sm₁ sm₂ pop hl rest (i + 1)]

theorem site_to_entry_congr (sm₁ sm₂ : SampleMap)
    (hl : ∀ k, sm₁.lookup k = sm₂.lookup k) (hpop : populationsOf sm₁ = populationsOf sm₂)
    (site : List Nat) : site_to_entry site sm₁ = site_to_entry site sm₂ := by
  rw [site_to_entry, site_to_entry, hpop]
  generalize populationsOf sm₂ = pops
  induction pops with
  | nil => rfl
  | cons pop rest ih =>
    rw [ntonsLoop, ntonsLoop,
      show nton site sm₁ pop = nton site sm₂ pop from nton_go_congr sm₁ sm₂ pop hl site 0, ih]

/-! Last auxiliary facts. -/

theorem getD_mem {α : Type} : ∀ (l : List α) (i : Nat) (d : α), i < l.length → l.getD i d ∈ l
  | [], _, _, h => absurd h (by simp)
  | _ :: _, 0, _, _ => List.mem_cons_self _ _
  | _ :: rest, i + 1, d, h => List.mem_cons_of_mem _ (getD_mem rest i d (by simpa using h))

theorem getD_replicate_zero : ∀ (n j : Nat), (List.replicate n 0).getD j 0 = 0
  | 0, _ => rfl
  | _ + 1, 0 => rfl
  | n + 1, j + 1 => by
    rw [List.replicate_succ, List.getD_cons_succ]
    exact getD_replicate_zero n j

theorem sum_replicate_zero : ∀ n : Nat, (List.replicate n 0).sum = 0
  | 0 => rfl
  | n + 1 => by rw [List.replicate_succ, List.sum_cons, sum_replicate_zero n]

theorem entry_valid (site : List Nat) (sm : SampleMap) :
    validIndex (matShape sm) ((populationsOf sm).map (fun pop =>
      site.enum.countP (fun q => decide (sm.lookup q.1 = some pop) && decide (q.2 ≠ 0))))
      = true := by
  rw [matShape]
  exact validIndex_map _ _ (populationsOf sm)
    (fun pop _ => Nat.lt_succ_of_le (countP_entry_le sm site pop))

/-! The claims. -/

/-- C1: for every flattened site whose haplotype positions are all mapped,
`site_to_entry` returns an entry whose length is the number of distinct
population labels of the sample map, indexed by the canonical population
order (sorted lexicographically, without duplicates, containing exactly the
labels of the map), and whose k-th component counts the haplotype positions
mapped to the k-th population that carry a non-zero call. -/
theorem C1_site_to_entry_spec (site : List Nat) (sm : SampleMap)
    (hmap : ∀ p, p < site.length → (sm.lookup p).isSome = true) :
    ∃ entry, site_to_entry site sm = some entry ∧
      entry.length = (sm.map Prod.snd).dedup.length ∧
      (populationsOf sm).Sorted PopLe ∧ (populationsOf sm).Nodup ∧
      (∀ a, a ∈ populationsOf sm ↔ a ∈ sm.map Prod.snd) ∧
      ∀ k, k < entry.length → entry.getD k 0 =
        site.enum.countP (fun q =>
          decide (sm.lookup q.1 = some ((populationsOf sm).getD k "")) &&
            decide (q.2 ≠ 0)) := by
  refine ⟨_, site_to_entry_eq site sm hmap, ?_, populationsOf_sorted sm,
    populationsOf_nodup sm, mem_populationsOf sm, ?_⟩
  · rw [List.length_map, length_populationsOf]
  · intro k hk
    rw [List.length_map] at hk
    exact getD_map 0 _ (populationsOf sm) k "" hk

/-- Witness for C1 at the fixture site and sample map of the repository
tests. -/
theorem C1_witness :
    (∀ p, p < ([0, 0, 0, 1, 0, 0, 0, 1] : List Nat).length →
      (exMap.lookup p).isSome = true) ∧
    ∃ entry, site_to_entry [0, 0, 0, 1, 0, 0, 0, 1] exMap = some entry ∧
      entry.length = (exMap.map Prod.snd).dedup.length ∧
      (populationsOf exMap).Sorted PopLe ∧ (populationsOf exMap).Nodup ∧
      (∀ a, a ∈ populationsOf exMap ↔ a ∈ exMap.map Prod.snd) ∧
      ∀ k, k < entry.length → entry.getD k 0 =
        ([0, 0, 0, 1, 0, 0, 0, 1] : List Nat).enum.countP (fun q =>
          decide (exMap.lookup q.1 = some ((populationsOf exMap).getD k "")) &&
            decide (q.2 ≠ 0)) :=
  ⟨by decide, C1_site_to_entry_spec [0, 0, 0, 1, 0, 0, 0, 1] exMap (by decide)⟩

/-- C2 counterexample: haplotype position 1 of site `[1, 1]` has no entry in
the sample map `[(0, popA)]`, and `site_to_entry` fails (no result at all,
the unwrap of the missing lookup) instead of excluding the position and
returning normally, refuting the claim that it never fails. -/
theorem C2_counterexample :
    (([(0, "popA")] : SampleMap).lookup 1 = none) ∧
    site_to_entry [1, 1] [(0, "popA")] = none := by decide

/-- C2 amended: a haplotype position with no entry in the sample map makes
`site_to_entry` fail (the Rust body unwraps the missing lookup and panics,
modelled as `none`) whenever at least one population exists; the position is
not silently excluded.  (With an empty sample map the population loop never
runs and the unwrap is never reached.) -/
theorem C2_unmapped_position_fails (site : List Nat) (sm : SampleMap) (p : Nat)
    (hp : p < site.length) (hnone : sm.lookup p = none)
    (hpops : populationsOf sm ≠ []) : site_to_entry site sm = none :=
  site_to_entry_none site sm p hp hnone hpops

/-- Witness for the amended C2. -/
theorem C2_witness :
    (1 < ([1, 1] : List Nat).length ∧ (([(0, "popA")] : SampleMap).lookup 1 = none) ∧
      populationsOf [(0, "popA")] ≠ []) ∧
    site_to_entry [1, 1] [(0, "popA")] = none :=
  ⟨⟨by decide, by decide, by decide⟩,
    C2_unmapped_position_fails [1, 1] [(0, "popA")] 1 (by decide) (by decide) (by decide)⟩

/-- C6 counterexample: on the empty sample map, `n_haps_per_pop` returns the
empty count map normally; the code is total and defines no `ConfigError` (or
any other error value), refuting the claim that indexing an empty map fails. -/
theorem C6_counterexample : n_haps_per_pop ([] : SampleMap) = [] := by decide

/-- C6 amended: `n_haps_per_pop` never fails; it returns the empty count map
exactly when the sample map is empty (no error kind exists in the code). -/
theorem C6_empty_map_returns_empty (sm : SampleMap) :
    n_haps_per_pop sm = [] ↔ sm = [] :=
  n_haps_per_pop_eq_nil_iff sm

/-- Witness for the amended C6 at a one-entry sample map. -/
theorem C6_witness :
    n_haps_per_pop ([(0, "popA")] : SampleMap) = [] ↔ ([(0, "popA")] : SampleMap) = [] :=
  C6_empty_map_returns_empty [(0, "popA")]

/-- C7: two sample maps with exactly the same individual-to-population pairs
(permutations of one another as entry dumps, with unique keys) yield the same
canonical population order, and `site_to_entry` returns the same tuple for
every flattened site under either map. -/
theorem C7_determinism (sm₁ sm₂ : SampleMap) (hwf : SampleMapWF sm₁)
    (hperm : sm₁.Perm sm₂) :
    populationsOf sm₁ = populationsOf sm₂ ∧
    ∀ site, site_to_entry site sm₁ = site_to_entry site sm₂ := by
  have hpop := populationsOf_perm sm₁ sm₂ hperm
  exact ⟨hpop, fun site =>
    site_to_entry_congr sm₁ sm₂ (lookup_perm_eq sm₁ sm₂ hwf hperm) hpop site⟩

/-- Witness for C7 on two orderings of a two-entry sample map. -/
theorem C7_witness :
    (SampleMapWF [(0, "popB"), (1, "popA")] ∧
      ([(0, "popB"), (1, "popA")] : SampleMap).Perm [(1, "popA"), (0, "popB")]) ∧
    (populationsOf [(0, "popB"), (1, "popA")] = populationsOf [(1, "popA"), (0, "popB")] ∧
      ∀ site, site_to_entry site [(0, "popB"), (1, "popA")] =
        site_to_entry site [(1, "popA"), (0, "popB")]) :=
  ⟨⟨by decide, by decide⟩,
    C7_determinism [(0, "popB"), (1, "popA")] [(1, "popA"), (0, "popB")] (by decide) (by decide)⟩

/-- C8: on a fully mapped flattened site every component of the entry lies
between `0` and the haplotype count that `n_haps_per_pop` reports for the
corresponding canonical population, and the components sum to at most the
total number of haplotype positions of the site. -/
theorem C8_entry_bounds (site : List Nat) (sm : SampleMap)
    (hmap : ∀ p, p < site.length → (sm.lookup p).isSome = true) :
    ∃ entry, site_to_entry site sm = some entry ∧
      (∀ k, k < entry.length → 0 ≤ entry.getD k 0 ∧
        entry.getD k 0 ≤ countOf (n_haps_per_pop sm) ((populationsOf sm).getD k "")) ∧
      entry.sum ≤ site.length := by
  refine ⟨_, site_to_entry_eq site sm hmap, ?_, ?_⟩
  · intro k hk
    rw [List.length_map] at hk
    refine ⟨Nat.zero_le _, ?_⟩
    rw [getD_map 0 _ (populationsOf sm) k "" hk]
    exact countP_entry_le sm site ((populationsOf sm).getD k "")
  · rw [entry_sum_eq site sm hmap]
    exact List.countP_le_length _

/-- Witness for C8 at the fixture site. -/
theorem C8_witness :
    (∀ p, p < ([0, 0, 0, 1, 0, 0, 0, 1] : List Nat).length →
      (exMap.lookup p).isSome = true) ∧
    ∃ entry, site_to_entry [0, 0, 0, 1, 0, 0, 0, 1] exMap = some entry ∧
      (∀ k, k < entry.length → 0 ≤ entry.getD k 0 ∧
        entry.getD k 0 ≤ countOf (n_haps_per_pop exMap) ((populationsOf exMap).getD k "")) ∧
      entry.sum ≤ ([0, 0, 0, 1, 0, 0, 0, 1] : List Nat).length :=
  ⟨by decide, C8_entry_bounds [0, 0, 0, 1, 0, 0, 0, 1] exMap (by decide)⟩

/-- C9: on a block whose flattened sites are all fully mapped, `bsfs_indices`
returns exactly one entry per site, in block order, each equal to
`site_to_entry` of the flattened site; no site is dropped or duplicated. -/
theorem C9_indices_per_site (calls : List (List (List Nat))) (sm : SampleMap)
    (hmap : ∀ site ∈ calls, ∀ p, p < (flatten_site site).length →
      (sm.lookup p).isSome = true) :
    ∃ entries, bsfs_indices calls sm = some entries ∧
      entries.length = calls.length ∧
      ∀ i, i < calls.length →
        site_to_entry (flatten_site (calls.getD i [])) sm = some (entries.getD i []) := by
  refine ⟨_, bsfsLoop_eq_map sm calls hmap, by rw [List.length_map], ?_⟩
  intro i hi
  rw [getD_map [] _ calls i [] hi]
  have hmem : calls.getD i [] ∈ calls := getD_mem calls i [] hi
  exact site_to_entry_eq _ sm (hmap _ hmem)

/-- Witness for C9 at the fixture block. -/
theorem C9_witness :
    (∀ site ∈ exBlock, ∀ p, p < (flatten_site site).length →
      (exMap.lookup p).isSome = true) ∧
    ∃ entries, bsfs_indices exBlock exMap = some entries ∧
      entries.length = exBlock.length ∧
      ∀ i, i < exBlock.length →
        site_to_entry (flatten_site (exBlock.getD i [])) exMap = some (entries.getD i []) :=
  ⟨by decide, C9_indices_per_site exBlock exMap (by decide)⟩

/-- C10: on a fully mapped flattened site the components of the entry sum to
exactly the number of haplotype positions carrying a non-zero (derived)
call: the populations partition the mapped positions. -/
theorem C10_entry_sum (site : List Nat) (sm : SampleMap)
    (hmap : ∀ p, p < site.length → (sm.lookup p).isSome = true) :
    ∃ entry, site_to_entry site sm = some entry ∧
      entry.sum = site.countP (fun v => decide (v ≠ 0)) :=
  ⟨_, site_to_entry_eq site sm hmap, entry_sum_eq site sm hmap⟩

/-- Witness for C10 at the second fixture site. -/
theorem C10_witness :
    (∀ p, p < ([0, 1, 1, 0, 0, 0, 1, 1] : List Nat).length →
      (exMap.lookup p).isSome = true) ∧
    ∃ entry, site_to_entry [0, 1, 1, 0, 0, 0, 1, 1] exMap = some entry ∧
      entry.sum = ([0, 1, 1, 0, 0, 0, 1, 1] : List Nat).countP (fun v => decide (v ≠ 0)) :=
  ⟨by decide, C10_entry_sum [0, 1, 1, 0, 0, 0, 1, 1] exMap (by decide)⟩

theorem entries_valid (calls : List (List (List Nat))) (sm : SampleMap) :
    ∀ x ∈ calls.map (fun site => (populationsOf sm).map (fun pop =>
      (flatten_site site).enum.countP
        (fun q => decide (sm.lookup q.1 = some pop) && decide (q.2 ≠ 0)))),
      validIndex (matShape sm) x = true := by
  intro x hx
  obtain ⟨site, hsite, rfl⟩ := List.mem_map.mp hx
  exact entry_valid (flatten_site site) sm

theorem entries_ravel_lt (calls : List (List (List Nat))) (sm : SampleMap) :
    ∀ x ∈ calls.map (fun site => (populationsOf sm).map (fun pop =>
      (flatten_site site).enum.countP
        (fun q => decide (sm.lookup q.1 = some pop) && decide (q.2 ≠ 0)))),
      ravel (matShape sm) x < (List.replicate (matShape sm).prod 0).length := by
  intro x hx
  rw [List.length_replicate]
  exact ravel_lt _ x (entries_valid calls sm x hx)

/-- C5: matrix mode agrees with accumulating indices-mode output — building a
matrix of the canonical shape by bumping the cell of every entry returned by
`bsfs_indices`, in order, over a zero-initialised dense matrix gives exactly
the result of `bsfs_matrix` (and when classification fails, both modes fail
together).  Matrix mode here is modelled from the spec because its Rust body
does not compile. -/
theorem C5_modes_agree (calls : List (List (List Nat))) (sm : SampleMap) :
    bsfs_matrix calls sm =
      Option.map (fun entries => accumulate (matShape sm) entries)
        (bsfs_indices calls sm) := by
  simp only [bsfs_matrix, bsfs_indices, accumulate]
  exact bsfsMatrixLoop_eq sm (matShape sm) calls (List.replicate (matShape sm).prod 0)

/-- C3 (matrix mode modelled from the spec): on a block whose flattened sites
are all fully mapped, `bsfs_matrix` returns a dense matrix whose shape has
one axis per canonical population, axis `k` sized one more than the
haplotype count `n_haps_per_pop` reports for it, with one cell per point of
the shape, and the cell at every in-range multi-index `e` holds the number
of sites of the block classified to entry `e` (cells no site reaches stay at
their initial zero). -/
theorem C3_bsfs_matrix_spec (calls : List (List (List Nat))) (sm : SampleMap)
    (hmap : ∀ site ∈ calls, ∀ p, p < (flatten_site site).length →
      (sm.lookup p).isSome = true) :
    ∃ entries M, bsfs_indices calls sm = some entries ∧ bsfs_matrix calls sm = some M ∧
      matShape sm = (populationsOf sm).map
        (fun pop => countOf (n_haps_per_pop sm) pop + 1) ∧
      M.length = (matShape sm).prod ∧
      (∀ e, validIndex (matShape sm) e = true →
        M.getD (ravel (matShape sm) e) 0 = entries.count e) := by
  have hloop := bsfsLoop_eq_map sm calls hmap
  refine ⟨_, accumulate (matShape sm) (calls.map (fun site => (populationsOf sm).map
      (fun pop => (flatten_site site).enum.countP
        (fun q => decide (sm.lookup q.1 = some pop) && decide (q.2 ≠ 0))))),
    hloop, ?_, rfl, ?_, ?_⟩
  · simp only [bsfs_matrix, accumulate]
    rw [bsfsMatrixLoop_eq sm (matShape sm) calls (List.replicate (matShape sm).prod 0), hloop]
    rfl
  · simp only [accumulate]
    rw [length_foldl_bump, List.length_replicate]
  · intro e he
    simp only [accumulate]
    rw [getD_foldl_bump (matShape sm) _ _ _ (entries_ravel_lt calls sm), getD_replicate_zero,
      Nat.zero_add, List.count_eq_countP]
    apply List.countP_congr
    intro x hx
    constructor
    · intro hxe
      have hx2 := ravel_inj (matShape sm) x e (entries_valid calls sm x hx) he
        (of_decide_eq_true hxe)
      simp [hx2]
    · intro hxe
      have hx2 : x = e := by simpa using hxe
      subst hx2
      simp

/-- Witness for C3 at the fixture block. -/
theorem C3_witness :
    (∀ site ∈ exBlock, ∀ p, p < (flatten_site site).length →
      (exMap.lookup p).isSome = true) ∧
    ∃ entries M, bsfs_indices exBlock exMap = some entries ∧
      bsfs_matrix exBlock exMap = some M ∧
      matShape exMap = (populationsOf exMap).map
        (fun pop => countOf (n_haps_per_pop exMap) pop + 1) ∧
      M.length = (matShape exMap).prod ∧
      (∀ e, validIndex (matShape exMap) e = true →
        M.getD (ravel (matShape exMap) e) 0 = entries.count e) :=
  ⟨by decide, C3_bsfs_matrix_spec exBlock exMap (by decide)⟩

/-- C4 (matrix mode modelled from the spec): the cells of the matrix of a
block of fully mapped sites sum to the number of sites of the block — every
site is counted in exactly one cell. -/
theorem C4_matrix_total (calls : List (List (List Nat))) (sm : SampleMap)
    (hmap : ∀ site ∈ calls, ∀ p, p < (flatten_site site).length →
      (sm.lookup p).isSome = true) :
    ∃ M, bsfs_matrix calls sm = some M ∧ M.sum = calls.length := by
  have hloop := bsfsLoop_eq_map sm calls hmap
  refine ⟨accumulate (matShape sm) (calls.map (fun site => (populationsOf sm).map
      (fun pop => (flatten_site site).enum.countP
        (fun q => decide (sm.lookup q.1 = some pop) && decide (q.2 ≠ 0))))), ?_, ?_⟩
  · simp only [bsfs_matrix, accumulate]
    rw [bsfsMatrixLoop_eq sm (matShape sm) calls (List.replicate (matShape sm).prod 0), hloop]
    rfl
  · simp only [accumulate]
    rw [sum_foldl_bump (matShape sm) _ _ (entries_ravel_lt calls sm), sum_replicate_zero,
      Nat.zero_add, List.length_map]

/-- Witness for C4 at the fixture block. -/
theorem C4_witness :
    (∀ site ∈ exBlock, ∀ p, p < (flatten_site site).length →
      (exMap.lookup p).isSome = true) ∧
    ∃ M, bsfs_matrix exBlock exMap = some M ∧ M.sum = exBlock.length :=
  ⟨by decide, C4_matrix_total exBlock exMap (by decide)⟩
